import Mathlib

/-!
Verification of the `parameterize` library, a Python implementation of
SRFI-39-style dynamically scoped, thread-local parameter bindings.

The embedding models the source file `parameterize.py`:

* `Environment` (a store `_data` plus an optional `_parent`) becomes a chain,
  represented as the list of non-root frame stores (innermost first) together
  with the root frame's store.  The root is the unique frame whose `_parent`
  is `None`.  A Python dict is modelled as a function `Key → Option Value`;
  `Parameter` keys compare by identity, modelled as natural numbers.
* Raised exceptions (`KeyError` for unbound keys, `TypeError` for bad call
  arity, `AttributeError` for a missing thread-local attribute) are modelled
  with `Option`/`Except`.
* `EnvironmentProxy.create` and `Parameter.parameterize` (context managers
  with a `try`/`finally` that restores the saved head) are modelled by an
  interpreter over a small command language of the operations the library
  exposes inside a scope; the `finally` restoration happens on both the
  normal and the exceptional exit path of the interpreter.
-/

/-- Binding keys.  Python dictionaries key `Parameter` objects by identity;
identities are modelled as natural numbers. -/
abbrev Key := Nat

/-- Python values appearing in the claims: `None`, integers and strings. -/
inductive Value where
  | vnone
  | int (n : Int)
  | str (s : String)
deriving DecidableEq

/-- One frame's own store, `Environment._data`: a finite mapping from keys
to values, modelled as a function into `Option Value`. -/
abbrev Store := Key → Option Value

/-- The empty store (a fresh dictionary). -/
def eStore : Store := fun _ => none

/-- Writing one key of a store: `self._data[key] = value`. -/
def storeSet (s : Store) (k : Key) (v : Value) : Store :=
  fun q => if q = k then some v else s q

/-- Removing one key of a store: `del self._data[key]`. -/
def storeDel (s : Store) (k : Key) : Store :=
  fun q => if q = k then none else s q

/-- `Environment.__getitem__` (parameterize.py lines 12-17) on the chain with
non-root frame stores `fs` (innermost first) above root store `r`: if the key
is in this frame's own data, return its value; else, if a parent exists,
delegate to the parent; at the root, raise `KeyError`, modelled as `none`. -/
def envGet : List Store → Store → Key → Option Value
  | [], r, k => r k
  | s :: rest, r, k =>
    match s k with
    | some v => some v
    | none => envGet rest r k

/-- `Environment.__setitem__` (parameterize.py lines 19-23): if the key is in
this frame's own data, or this frame has no parent (the root), write into this
frame's own data; otherwise delegate the write to the parent. -/
def envSet : List Store → Store → Key → Value → List Store × Store
  | [], r, k, v => ([], storeSet r k v)
  | s :: rest, r, k, v =>
    if (s k).isSome then
      (storeSet s k v :: rest, r)
    else
      let st := envSet rest r k v
      (s :: st.1, st.2)

/-- `Environment.__delitem__` (parameterize.py lines 25-31): if the key is in
this frame's own data, remove it there; else, if a parent exists, delegate the
removal; at the root, raise `KeyError`, modelled as `none`. -/
def envDel : List Store → Store → Key → Option (List Store × Store)
  | [], r, k => if (r k).isSome then some ([], storeDel r k) else none
  | s :: rest, r, k =>
    if (s k).isSome then
      some (storeDel s k :: rest, r)
    else
      match envDel rest r k with
      | some st => some (s :: st.1, st.2)
      | none => none

/-- Index of the first (innermost) non-root frame whose own store binds the
key.  This definition follows the specification's words — "the first ancestor
frame that owns the key" — and is compared against the source functions. -/
def firstOwner (k : Key) : List Store → Option Nat
  | [] => none
  | s :: rest =>
    if (s k).isSome then some 0 else (firstOwner k rest).map (· + 1)

/-- First binding for the key among the non-root frames, following the
specification's words for lookup precedence. -/
def chainLookup (k : Key) : List Store → Option Value
  | [] => none
  | s :: rest =>
    match s k with
    | some v => some v
    | none => chainLookup k rest

theorem storeSet_same (s : Store) (k : Key) (v : Value) :
    storeSet s k v k = some v := by
  simp [storeSet]

theorem storeSet_other (s : Store) (k q : Key) (v : Value) (h : q ≠ k) :
    storeSet s k v q = s q := by
  simp [storeSet, h]

theorem storeDel_same (s : Store) (k : Key) : storeDel s k k = none := by
  simp [storeDel]

theorem storeDel_other (s : Store) (k q : Key) (h : q ≠ k) :
    storeDel s k q = s q := by
  simp [storeDel, h]

/-- The source `__setitem__` writes exactly into the first frame owning the
key, or into the root when no frame owns it. -/
theorem envSet_spec (fs : List Store) (r : Store) (k : Key) (v : Value) :
    envSet fs r k v =
      match firstOwner k fs with
      | some i => (fs.set i (storeSet (fs.getD i eStore) k v), r)
      | none => (fs, storeSet r k v) := by
  induction fs with
  | nil => rfl
  | cons s rest ih =>
    by_cases h : (s k).isSome
    · simp [envSet, firstOwner, h, List.getD]
    · simp only [envSet, firstOwner, h, if_neg, Bool.false_eq_true,
        not_false_iff, ite_false, ih]
      cases hfo : firstOwner k rest with
      | none => simp
      | some i => simp [List.getD]

/-- The source `__getitem__` returns the first binding along the chain,
falling back to the root store. -/
theorem envGet_spec (fs : List Store) (r : Store) (k : Key) :
    envGet fs r k =
      match chainLookup k fs with
      | some v => some v
      | none => r k := by
  induction fs with
  | nil => rfl
  | cons s rest ih =>
    cases h : s k with
    | some v => simp [envGet, chainLookup, h]
    | none => simp [envGet, chainLookup, h, ih]

/-- The source `__delitem__` removes exactly from the first frame owning the
key, or from the root when no frame owns it, and fails when the root does not
bind it either. -/
theorem envDel_spec (fs : List Store) (r : Store) (k : Key) :
    envDel fs r k =
      match firstOwner k fs with
      | some i => some (fs.set i (storeDel (fs.getD i eStore) k), r)
      | none => if (r k).isSome then some (fs, storeDel r k) else none := by
  induction fs with
  | nil => rfl
  | cons s rest ih =>
    by_cases h : (s k).isSome
    · simp [envDel, firstOwner, h, List.getD]
    · simp only [envDel, firstOwner, h, if_neg, Bool.false_eq_true,
        not_false_iff, ite_false, ih]
      cases hfo : firstOwner k rest with
      | none =>
        by_cases hr : (r k).isSome <;> simp [hr]
      | some i => simp [List.getD]

/-- After a chain-level write of a key, reading that key back finds the
written value. -/
theorem envGet_envSet_same (fs : List Store) (r : Store) (k : Key) (v : Value) :
    envGet (envSet fs r k v).1 (envSet fs r k v).2 k = some v := by
  induction fs with
  | nil => simp [envSet, envGet, storeSet_same]
  | cons s rest ih =>
    by_cases h : (s k).isSome
    · simp [envSet, envGet, h, storeSet_same]
    · have hnone : s k = none := Option.not_isSome_iff_eq_none.mp (by simpa using h)
      simp [envSet, envGet, h, hnone, ih]

/-- A chain-level write at a key not owned by any non-root frame leaves every
non-root frame unchanged and writes into the root store. -/
theorem envSet_not_owned (fs : List Store) (r : Store) (k : Key) (v : Value)
    (h : ∀ s ∈ fs, s k = none) :
    envSet fs r k v = (fs, storeSet r k v) := by
  induction fs with
  | nil => rfl
  | cons s rest ih =>
    have hs : s k = none := h s (List.mem_cons_self s rest)
    have hrest : ∀ t ∈ rest, t k = none := fun t ht => h t (List.mem_cons_of_mem s ht)
    simp [envSet, hs, ih hrest]

/-- Chain-level deletion fails exactly when lookup fails: the key is absent
along the entire reachable chain. -/
theorem envDel_none_iff (fs : List Store) (r : Store) (k : Key) :
    envDel fs r k = none ↔ envGet fs r k = none := by
  induction fs with
  | nil =>
    constructor
    · intro h
      by_cases hr : (r k).isSome
      · simp [envDel, hr] at h
      · simpa [envGet] using Option.not_isSome_iff_eq_none.mp hr
    · intro h
      simp [envDel, envGet] at h ⊢
      simp [h]
  | cons s rest ih =>
    by_cases h : (s k).isSome
    · rcases Option.isSome_iff_exists.mp h with ⟨v, hv⟩
      simp [envDel, envGet, h, hv]
    · have hnone : s k = none := Option.not_isSome_iff_eq_none.mp (by simpa using h)
      simp only [envDel, envGet, h, Bool.false_eq_true, if_false, hnone]
      cases hd : envDel rest r k with
      | none => simpa [hd] using ih
      | some st =>
        simp only [hd] at ih
        simp [← ih, hd]

/-- Python exceptions the library can surface: `KeyError` for an unbound
lookup or deletion, `TypeError` for a bad call-sugar arity, `AttributeError`
for a missing attribute on the context-local object, and an arbitrary
exception raised by enclosed user code. -/
inductive Exc where
  | unboundKey
  | invalidArity
  | attributeError
  | userExc
deriving DecidableEq

mutual
/-- One operation the library exposes to code running inside a dynamic
scope: a facade lookup, a facade write, a facade deletion, raising an
exception (which also stands for any abnormal exit such as an early return
unwinding through the context manager), or entering a nested scope via
`EnvironmentProxy.create` with a seed store. -/
inductive Cmd where
  | get (k : Key)
  | set (k : Key) (v : Value)
  | del (k : Key)
  | raiseExc
  | scope (d : Store) (body : Prog)
/-- A sequence of operations (the enclosed code block). -/
inductive Prog where
  | nil
  | cons (c : Cmd) (p : Prog)
end

mutual
/-- Run one command on the current chain.  The `scope` case is
`EnvironmentProxy.create` (parameterize.py lines 77-90): save the current
head, install a new frame seeded with `d` whose parent is the saved head,
run the body, and in a `finally` restore the saved head — on the normal and
on the exceptional path alike.  Restoring the saved head object is, for the
well-nested bodies expressible here, dropping the scope's own frame from the
resulting chain. -/
def execCmd : Cmd → List Store → Store → Except Exc Unit × List Store × Store
  | Cmd.get k, fs, r =>
    match envGet fs r k with
    | some _ => (Except.ok (), fs, r)
    | none => (Except.error Exc.unboundKey, fs, r)
  | Cmd.set k v, fs, r =>
    let st := envSet fs r k v
    (Except.ok (), st.1, st.2)
  | Cmd.del k, fs, r =>
    match envDel fs r k with
    | some st => (Except.ok (), st.1, st.2)
    | none => (Except.error Exc.unboundKey, fs, r)
  | Cmd.raiseExc, fs, r => (Except.error Exc.userExc, fs, r)
  | Cmd.scope d body, fs, r =>
    let res := execProg body (d :: fs) r
    (res.1, res.2.1.tail, res.2.2)
/-- Run a sequence of commands; an exception aborts the rest of the block
and propagates, carrying the state left behind. -/
def execProg : Prog → List Store → Store → Except Exc Unit × List Store × Store
  | Prog.nil, fs, r => (Except.ok (), fs, r)
  | Prog.cons c p, fs, r =>
    match execCmd c fs r with
    | (Except.ok _, fs', r') => execProg p fs' r'
    | (Except.error e, fs', r') => (Except.error e, fs', r')
end

theorem envSet_length (fs : List Store) (r : Store) (k : Key) (v : Value) :
    (envSet fs r k v).1.length = fs.length := by
  induction fs with
  | nil => rfl
  | cons s rest ih =>
    by_cases h : (s k).isSome <;> simp [envSet, h, ih]

theorem envDel_length (fs : List Store) (r : Store) (k : Key)
    (st : List Store × Store) (h : envDel fs r k = some st) :
    st.1.length = fs.length := by
  induction fs generalizing st with
  | nil =>
    by_cases hr : (r k).isSome
    · simp [envDel, hr] at h
      simp [← h]
    · simp [envDel, hr] at h
  | cons s rest ih =>
    by_cases hs : (s k).isSome
    · simp [envDel, hs] at h
      simp [← h]
    · simp only [envDel, hs, Bool.false_eq_true, if_false] at h
      cases hd : envDel rest r k with
      | none => simp [hd] at h
      | some st' =>
        simp [hd] at h
        simp [← h, ih st' hd]


mutual
/-- Every command leaves the chain at its pre-execution nesting depth: in
particular a `scope` restores the previous head whether its body completed
normally or raised. -/
theorem execCmd_length (c : Cmd) : ∀ (fs : List Store) (r : Store),
    (execCmd c fs r).2.1.length = fs.length := by
  cases c with
  | get k =>
    intro fs r
    cases h : envGet fs r k <;> simp [execCmd, h]
  | set k v =>
    intro fs r
    simp [execCmd, envSet_length]
  | del k =>
    intro fs r
    cases h : envDel fs r k with
    | none => simp [execCmd, h]
    | some st => simp [execCmd, h, envDel_length fs r k st h]
  | raiseExc => intro fs r; simp [execCmd]
  | scope d body =>
    intro fs r
    have hb := execProg_length body (d :: fs) r
    simp only [execCmd, List.length_tail, hb, List.length_cons]
    omega
theorem execProg_length (p : Prog) : ∀ (fs : List Store) (r : Store),
    (execProg p fs r).2.1.length = fs.length := by
  cases p with
  | nil => intro fs r; rfl
  | cons c p' =>
    intro fs r
    have hc := execCmd_length c fs r
    cases h : execCmd c fs r with
    | mk res st =>
      cases res with
      | ok u =>
        have hp := execProg_length p' st.1 st.2
        simp only [execProg, h, hp]
        simpa [h] using hc
      | error e =>
        simp only [execProg, h]
        simpa [h] using hc
end

mutual
/-- The command never deletes the given key (at any scope depth).  The
`Parameter` API (`get`, `set`, `parameterize`) offers no deletion, so code
using a parameter only through its API satisfies this for the parameter's
key. -/
def cmdNoDel (k : Key) : Cmd → Bool
  | Cmd.del q => q != k
  | Cmd.scope _ body => progNoDel k body
  | _ => true
/-- The program never deletes the given key. -/
def progNoDel (k : Key) : Prog → Bool
  | Prog.nil => true
  | Prog.cons c p => cmdNoDel k c && progNoDel k p
end

/-- Some frame among the first `n` (innermost) ones owns the key. -/
def ownedWithin (k : Key) (n : Nat) (fs : List Store) : Prop :=
  ∃ i, i < n ∧ ((fs.getD i eStore) k).isSome = true

/-- How executing code can change the chain, as seen at one key `k`, when the
key is shielded by an owner among the `n` innermost frames: the number of
frames is preserved, frames owning `k` keep owning it, and the binding of `k`
in every frame from index `n` outward — and in the root — is untouched. -/
def colOk (k : Key) (n : Nat) (st st' : List Store × Store) : Prop :=
  st'.1.length = st.1.length
  ∧ (∀ i, ((st.1.getD i eStore) k).isSome = true →
      ((st'.1.getD i eStore) k).isSome = true)
  ∧ (∀ i, n ≤ i → (st'.1.getD i eStore) k = (st.1.getD i eStore) k)
  ∧ st'.2 k = st.2 k

/-- Full preservation of the key's column: no frame's binding of `k` (nor the
root's) changed at all. -/
def colEq (k : Key) (st st' : List Store × Store) : Prop :=
  st'.1.length = st.1.length
  ∧ (∀ i, (st'.1.getD i eStore) k = (st.1.getD i eStore) k)
  ∧ st'.2 k = st.2 k

theorem colEq_colOk {k : Key} {st st' : List Store × Store} (n : Nat)
    (h : colEq k st st') : colOk k n st st' := by
  obtain ⟨h1, h2, h3⟩ := h
  exact ⟨h1, fun i hi => by rw [h2 i]; exact hi, fun i _ => h2 i, h3⟩

theorem colOk_refl (k : Key) (n : Nat) (st : List Store × Store) :
    colOk k n st st :=
  ⟨rfl, fun _ hi => hi, fun _ _ => rfl, rfl⟩

theorem colOk_trans {k : Key} {n : Nat} {a b c : List Store × Store}
    (hab : colOk k n a b) (hbc : colOk k n b c) : colOk k n a c := by
  obtain ⟨l1, m1, u1, r1⟩ := hab
  obtain ⟨l2, m2, u2, r2⟩ := hbc
  exact ⟨l2.trans l1, fun i hi => m2 i (m1 i hi),
    fun i hi => (u2 i hi).trans (u1 i hi), r2.trans r1⟩

theorem ownedWithin_mono {k : Key} {n : Nat} {st st' : List Store × Store}
    (h : ownedWithin k n st.1) (hc : colOk k n st st') :
    ownedWithin k n st'.1 := by
  obtain ⟨i, hi, hown⟩ := h
  exact ⟨i, hi, hc.2.1 i hown⟩

/-- A chain-level write at a different key never touches the given key's
column. -/
theorem envSet_colEq_ne (fs : List Store) (r : Store) (q k : Key)
    (v : Value) (h : q ≠ k) : colEq k (fs, r) (envSet fs r q v) := by
  induction fs with
  | nil =>
    refine ⟨rfl, fun i => rfl, ?_⟩
    exact storeSet_other r q k v (fun he => h he.symm)
  | cons s rest ih =>
    by_cases hs : (s q).isSome
    · refine ⟨by simp [envSet, hs], fun i => ?_, by simp [envSet, hs]⟩
      cases i with
      | zero =>
        simp [envSet, hs, List.getD, storeSet_other s q k v (fun he => h he.symm)]
      | succ j => simp [envSet, hs, List.getD]
    · obtain ⟨l1, m1, r1⟩ := ih
      refine ⟨by simpa [envSet, hs] using l1, fun i => ?_, by simpa [envSet, hs] using r1⟩
      cases i with
      | zero => simp [envSet, hs, List.getD]
      | succ j =>
        simpa [envSet, hs, List.getD] using m1 j

/-- A chain-level deletion at a different key never touches the given key's
column. -/
theorem envDel_colEq_ne (fs : List Store) (r : Store) (q k : Key)
    (st' : List Store × Store) (h : q ≠ k) (hdel : envDel fs r q = some st') :
    colEq k (fs, r) st' := by
  induction fs generalizing st' with
  | nil =>
    by_cases hr : (r q).isSome
    · simp [envDel, hr] at hdel
      refine ⟨by simp [← hdel], fun i => by simp [← hdel], ?_⟩
      simp [← hdel]
      exact storeDel_other r q k (fun he => h he.symm)
    · simp [envDel, hr] at hdel
  | cons s rest ih =>
    by_cases hs : (s q).isSome
    · simp [envDel, hs] at hdel
      refine ⟨by simp [← hdel], fun i => ?_, by simp [← hdel]⟩
      cases i with
      | zero =>
        simp [← hdel, List.getD, storeDel_other s q k (fun he => h he.symm)]
      | succ j => simp [← hdel, List.getD]
    · simp only [envDel, hs, Bool.false_eq_true, if_false] at hdel
      cases hd : envDel rest r q with
      | none => simp [hd] at hdel
      | some st'' =>
        simp [hd] at hdel
        obtain ⟨l1, m1, r1⟩ := ih st'' hd
        refine ⟨by simp [← hdel, l1], fun i => ?_, by simpa [← hdel] using r1⟩
        cases i with
        | zero => simp [← hdel, List.getD]
        | succ j => simpa [← hdel, List.getD] using m1 j

/-- A chain-level write at the shielded key lands on a frame within the
shield: frames from the shield boundary outward, and the root, keep their
binding of the key. -/
theorem envSet_colOk_same (fs : List Store) (r : Store) (k : Key) (v : Value)
    (n : Nat) (h : ownedWithin k n fs) :
    colOk k n (fs, r) (envSet fs r k v) := by
  induction fs generalizing n with
  | nil =>
    obtain ⟨i, _, hown⟩ := h
    simp [List.getD, eStore] at hown
  | cons s rest ih =>
    have hn : 1 ≤ n := by
      obtain ⟨i, hi, _⟩ := h
      omega
    by_cases hs : (s k).isSome
    · refine ⟨by simp [envSet, hs], fun i hi => ?_, fun i hni => ?_, by simp [envSet, hs]⟩
      · cases i with
        | zero => simp [envSet, hs, List.getD, storeSet_same]
        | succ j => simpa [envSet, hs, List.getD] using hi
      · cases i with
        | zero => omega
        | succ j => simp [envSet, hs, List.getD]
    · have hrest : ownedWithin k (n - 1) rest := by
        obtain ⟨i, hi, hown⟩ := h
        cases i with
        | zero => simp [List.getD] at hown; exact absurd hown hs
        | succ j =>
          refine ⟨j, by omega, ?_⟩
          simpa [List.getD] using hown
      obtain ⟨l1, m1, u1, r1⟩ := ih (n - 1) hrest
      refine ⟨by simpa [envSet, hs] using l1, fun i hi => ?_, fun i hni => ?_,
        by simpa [envSet, hs] using r1⟩
      · cases i with
        | zero =>
          have hi' : (s k).isSome = true := by simpa [List.getD_cons_zero] using hi
          exact absurd hi' hs
        | succ j =>
          simp only [envSet, hs, Bool.false_eq_true, if_false, List.getD] at hi ⊢
          simpa using m1 j (by simpa using hi)
      · cases i with
        | zero => omega
        | succ j =>
          simp only [envSet, hs, Bool.false_eq_true, if_false, List.getD]
          simpa using u1 j (by omega)

mutual
/-- Running any single command that never deletes the key `k`, while some
frame within the `n` innermost ones owns `k`, preserves the binding of `k` in
every frame from index `n` outward and in the root. -/
theorem execCmd_colOk (c : Cmd) : ∀ (k : Key), cmdNoDel k c = true →
    ∀ (fs : List Store) (r : Store) (n : Nat), ownedWithin k n fs →
    colOk k n (fs, r) (execCmd c fs r).2 := by
  cases c with
  | get q =>
    intro k _ fs r n _
    cases h : envGet fs r q <;> simp [execCmd, h] <;> exact colOk_refl k n (fs, r)
  | set q v =>
    intro k _ fs r n hown
    by_cases hq : q = k
    · subst hq
      simpa [execCmd] using envSet_colOk_same fs r q v n hown
    · simpa [execCmd] using colEq_colOk n (envSet_colEq_ne fs r q k v hq)
  | del q =>
    intro k hnd fs r n _
    have hq : q ≠ k := by simpa [cmdNoDel] using hnd
    cases h : envDel fs r q with
    | none => simp [execCmd, h]; exact colOk_refl k n (fs, r)
    | some st =>
      simpa [execCmd, h] using colEq_colOk n (envDel_colEq_ne fs r q k st hq h)
  | raiseExc =>
    intro k _ fs r n _
    simpa [execCmd] using colOk_refl k n (fs, r)
  | scope d body =>
    intro k hnd fs r n hown
    have hbody : progNoDel k body = true := by simpa [cmdNoDel] using hnd
    have hown' : ownedWithin k (n + 1) (d :: fs) := by
      obtain ⟨i, hi, ho⟩ := hown
      exact ⟨i + 1, by omega, by simpa [List.getD] using ho⟩
    have hcol := execProg_colOk body k hbody (d :: fs) r (n + 1) hown'
    obtain ⟨l1, m1, u1, r1⟩ := hcol
    refine ⟨?_, fun i hi => ?_, fun i hni => ?_, by simpa [execCmd] using r1⟩
    · simp only [execCmd, List.length_tail, l1, List.length_cons]
      omega
    · have := m1 (i + 1) (by simpa [List.getD] using hi)
      simp only [execCmd]
      cases hch : (execProg body (d :: fs) r).2.1 with
      | nil => simp [hch] at l1
      | cons g gs =>
        simpa [List.getD] using (by simpa [hch, List.getD] using this)
    · have := u1 (i + 1) (by omega)
      simp only [execCmd]
      cases hch : (execProg body (d :: fs) r).2.1 with
      | nil => simp [hch] at l1
      | cons g gs =>
        simpa [List.getD] using (by simpa [hch, List.getD] using this)
/-- Running any program that never deletes the key `k`, while some frame
within the `n` innermost ones owns `k`, preserves the binding of `k` in every
frame from index `n` outward and in the root — on the normal and on the
exceptional path alike. -/
theorem execProg_colOk (p : Prog) : ∀ (k : Key), progNoDel k p = true →
    ∀ (fs : List Store) (r : Store) (n : Nat), ownedWithin k n fs →
    colOk k n (fs, r) (execProg p fs r).2 := by
  cases p with
  | nil =>
    intro k _ fs r n _
    exact colOk_refl k n (fs, r)
  | cons c p' =>
    intro k hnd fs r n hown
    have hc : cmdNoDel k c = true := by
      simp [progNoDel, Bool.and_eq_true] at hnd
      exact hnd.1
    have hp : progNoDel k p' = true := by
      simp [progNoDel, Bool.and_eq_true] at hnd
      exact hnd.2
    have h1 := execCmd_colOk c k hc fs r n hown
    cases h : execCmd c fs r with
    | mk res st =>
      rw [h] at h1
      cases res with
      | ok u =>
        have hown2 : ownedWithin k n st.1 := ownedWithin_mono hown h1
        have h2 := execProg_colOk p' k hp st.1 st.2 n hown2
        have : execProg (Prog.cons c p') fs r = execProg p' st.1 st.2 := by
          simp [execProg, h]
        rw [this]
        exact colOk_trans h1 h2
      | error e =>
        have : execProg (Prog.cons c p') fs r = (Except.error e, st) := by
          simp [execProg, h]
        rw [this]
        exact h1
end

/-- Chain lookup depends only on the chain's column at the key: two chains of
the same depth that agree framewise, and at the root, on the key's binding
give the same lookup result. -/
theorem envGet_congr (fs fs' : List Store) (r r' : Store) (k : Key)
    (hlen : fs'.length = fs.length)
    (hpt : ∀ i, (fs'.getD i eStore) k = (fs.getD i eStore) k)
    (hr : r' k = r k) : envGet fs' r' k = envGet fs r k := by
  induction fs generalizing fs' with
  | nil =>
    cases fs' with
    | nil => simpa [envGet] using hr
    | cons s' rest' => simp at hlen
  | cons s rest ih =>
    cases fs' with
    | nil => simp at hlen
    | cons s' rest' =>
      have h0 : s' k = s k := by simpa [List.getD_cons_zero] using hpt 0
      have hrest : ∀ i, (rest'.getD i eStore) k = (rest.getD i eStore) k := by
        intro i
        simpa [List.getD_cons_succ] using hpt (i + 1)
      have hlen' : rest'.length = rest.length := by simpa using hlen
      cases hk : s k with
      | some v => simp [envGet, h0, hk]
      | none => simp [envGet, h0, hk, ih rest' hlen' hrest]

/-- Chain lookup fails exactly when no non-root frame and not the root binds
the key. -/
theorem envGet_none_iff (fs : List Store) (r : Store) (k : Key) :
    envGet fs r k = none ↔ (∀ s ∈ fs, s k = none) ∧ r k = none := by
  induction fs with
  | nil => simp [envGet]
  | cons s rest ih =>
    cases hk : s k with
    | some v => simp [envGet, hk]
    | none =>
      simp only [envGet, hk]
      rw [ih]
      constructor
      · rintro ⟨h1, h2⟩
        exact ⟨fun t ht => by
          rcases List.mem_cons.mp ht with he | ht'
          · subst he; exact hk
          · exact h1 t ht', h2⟩
      · rintro ⟨h1, h2⟩
        exact ⟨fun t ht => h1 t (List.mem_cons_of_mem s ht), h2⟩

/-- No non-root frame owns the key exactly when no frame binds it. -/
theorem firstOwner_none_iff (fs : List Store) (k : Key) :
    firstOwner k fs = none ↔ ∀ s ∈ fs, s k = none := by
  induction fs with
  | nil => simp [firstOwner]
  | cons s rest ih =>
    by_cases hs : (s k).isSome
    · rcases Option.isSome_iff_exists.mp hs with ⟨v, hv⟩
      simp [firstOwner, hs, hv]
    · have hnone : s k = none := Option.not_isSome_iff_eq_none.mp (by simpa using hs)
      simp only [firstOwner, hs, Bool.false_eq_true, if_false, Option.map_eq_none']
      rw [ih]
      constructor
      · intro h1 t ht
        rcases List.mem_cons.mp ht with he | ht'
        · subst he; exact hnone
        · exact h1 t ht'
      · intro h1 t ht
        exact h1 t (List.mem_cons_of_mem s ht)

/-- Models Python's builtin `int` on the values exercised by the library's
tests: integers pass through and strings of decimal digits are parsed.  (On
other inputs the real builtin raises; those inputs are not exercised, and we
leave the value unchanged.) -/
def charToDigit (c : Char) : Option Nat :=
  if 48 ≤ c.toNat ∧ c.toNat ≤ 57 then some (c.toNat - 48) else none

/-- Accumulate the decimal value of a digit string. -/
def digitsVal : List Char → Nat → Option Nat
  | [], acc => some acc
  | c :: cs, acc =>
    match charToDigit c with
    | some d => digitsVal cs (acc * 10 + d)
    | none => none

/-- Parse a nonempty string of decimal digits. -/
def pyStrToInt (s : String) : Option Int :=
  match s.data with
  | [] => none
  | cs => (digitsVal cs 0).map Int.ofNat

/-- The `int` converter used by the spec's coercion example. -/
def pyIntConv : Value → Value
  | Value.int n => Value.int n
  | Value.str s =>
    match pyStrToInt s with
    | some n => Value.int n
    | none => Value.str s
  | Value.vnone => Value.vnone

/-- The default converter, `lambda x: x` (parameterize.py line 115). -/
def idConv : Value → Value := fun v => v

/-- A `Parameter` (parameterize.py lines 106-154): its own identity serves as
the binding key and it carries the converter given at construction
(`self._converter`). -/
structure Parameter where
  key : Key
  converter : Value → Value

/-- `Parameter.__init__` (lines 115-121): bind `converter(default)` under the
parameter's own identity through the current dynamic environment. -/
def Parameter.init (p : Parameter) (dflt : Value) (fs : List Store) (r : Store) :
    List Store × Store :=
  envSet fs r p.key (p.converter dflt)

/-- `Parameter.get` (lines 123-125): look the parameter up in the current
dynamic environment; an unbound key surfaces as `KeyError`. -/
def Parameter.get (p : Parameter) (fs : List Store) (r : Store) : Except Exc Value :=
  match envGet fs r p.key with
  | some v => Except.ok v
  | none => Except.error Exc.unboundKey

/-- `Parameter.set` (lines 127-129): write `converter(value)` through the
current dynamic environment.  The Python method body has no `return`
statement, so the call evaluates to `None`; the first component records that
returned value. -/
def Parameter.set (p : Parameter) (v : Value) (fs : List Store) (r : Store) :
    Value × List Store × Store :=
  (Value.vnone, envSet fs r p.key (p.converter v))

/-- `Parameter.__call__` (lines 131-139): zero arguments perform `get`, one
argument performs `set` and returns its result, and any other arity raises
`TypeError`. -/
def Parameter.call (p : Parameter) (args : List Value) (fs : List Store)
    (r : Store) : Except Exc Value × List Store × Store :=
  match args with
  | [] => (p.get fs r, fs, r)
  | [v] =>
    let st := p.set v fs r
    (Except.ok st.1, st.2)
  | _ => (Except.error Exc.invalidArity, fs, r)

/-- `Parameter.parameterize` (lines 147-154): run the body inside a scope
created by `dynamic_environment.create` seeded with the single binding
`{self: converter(value)}`. -/
def Parameter.parameterize (p : Parameter) (v : Value) (body : Prog) : Cmd :=
  Cmd.scope (storeSet eStore p.key (p.converter v)) body

/-- Execution threads, identified by number. -/
abbrev ThreadId := Nat

/-- The `threading.local()` object `_context_local`: per-thread attribute
slots for `dynamic_environment`; `none` means the attribute was never set in
that thread, so reading it raises `AttributeError`. -/
def ContextLocal := ThreadId → Option (List Store × Store)

/-- The module-level statements on parameterize.py lines 46-49, executed once
by the importing thread `t0`: create `_context_local` and set its
`dynamic_environment` attribute — in thread `t0` only, since a plain
`threading.local()` attribute assignment is visible only to the thread that
performed it — to a parentless root environment with an empty store. -/
def moduleContextLocal (t0 : ThreadId) : ContextLocal :=
  fun t => if t = t0 then some ([], eStore) else none

/-- `EnvironmentProxy.__getitem__` (lines 66-67) as executed by thread `t`:
read `_context_local.dynamic_environment` — raising `AttributeError` if the
attribute is missing in this thread — then look the key up in it, raising
`KeyError` if unbound. -/
def proxyGetFrom (ctx : ContextLocal) (t : ThreadId) (k : Key) : Except Exc Value :=
  match ctx t with
  | none => Except.error Exc.attributeError
  | some st =>
    match envGet st.1 st.2 k with
    | some v => Except.ok v
    | none => Except.error Exc.unboundKey

/-- Claim C1: `set(key, value)` writes into the current frame's own store if
the key is already present there or the frame is a root, and otherwise
delegates the write to the parent chain, so the write lands on the first
ancestor frame that owns the key, or on the root if none does.  Moreover,
after entering a nested scope that does not bind the key, setting it and
exiting (restoring the saved head) leaves the outer lookup seeing the written
value — concretely, with the key bound to 43 at the root and an intervening
scope binding only an unrelated key, `set(k, 99)` inside followed by exit
leaves the outer `get(k)` at 99. -/
theorem setitem_see_through (fs : List Store) (r : Store) (k : Key) (v : Value) :
    (envSet fs r k v =
      match firstOwner k fs with
      | some i => (fs.set i (storeSet (fs.getD i eStore) k v), r)
      | none => (fs, storeSet r k v))
    ∧ (∀ d : Store, d k = none →
        envGet (envSet (d :: fs) r k v).1.tail (envSet (d :: fs) r k v).2 k = some v)
    ∧ envGet
        (envSet [storeSet eStore 1 (Value.int 1)] (storeSet eStore 0 (Value.int 43)) 0
          (Value.int 99)).1.tail
        (envSet [storeSet eStore 1 (Value.int 1)] (storeSet eStore 0 (Value.int 43)) 0
          (Value.int 99)).2 0 = some (Value.int 99) := by
  refine ⟨envSet_spec fs r k v, fun d hd => ?_, by decide⟩
  have hds : ¬(d k).isSome = true := by simp [hd]
  simp only [envSet, hds, Bool.false_eq_true, if_false, List.tail_cons]
  exact envGet_envSet_same fs r k v

/-- Witness for claim C1 at a concrete chain: one intervening frame binding
only key 1, root binding key 0. -/
theorem setitem_see_through_witness :
    (storeSet eStore 1 (Value.int 1)) 0 = none
    ∧ envGet
        (envSet (storeSet eStore 1 (Value.int 1) :: []) (storeSet eStore 0 (Value.int 43)) 0
          (Value.int 7)).1.tail
        (envSet (storeSet eStore 1 (Value.int 1) :: []) (storeSet eStore 0 (Value.int 43)) 0
          (Value.int 7)).2 0 = some (Value.int 7) :=
  ⟨by decide,
    (setitem_see_through [] (storeSet eStore 0 (Value.int 43)) 0 (Value.int 7)).2.1
      (storeSet eStore 1 (Value.int 1)) (by decide)⟩

/-- Claim C2: when the outer chain does not bind the key, entering
`createScope({k: 42})` makes the lookup return 42 inside the scope;
`set(k, 43)` inside makes it return 43 inside; and after exiting the scope
(restoring the saved head) the lookup fails with `KeyError` again — the
binding seeded into the scope's own frame never leaks out. -/
theorem nested_scope_isolation (fs : List Store) (r : Store) (k : Key)
    (h : envGet fs r k = none) :
    envGet (storeSet eStore k (Value.int 42) :: fs) r k = some (Value.int 42)
    ∧ envGet (envSet (storeSet eStore k (Value.int 42) :: fs) r k (Value.int 43)).1
        (envSet (storeSet eStore k (Value.int 42) :: fs) r k (Value.int 43)).2 k
        = some (Value.int 43)
    ∧ envGet (envSet (storeSet eStore k (Value.int 42) :: fs) r k (Value.int 43)).1.tail
        (envSet (storeSet eStore k (Value.int 42) :: fs) r k (Value.int 43)).2 k
        = none := by
  have hseed := storeSet_same eStore k (Value.int 42)
  refine ⟨by simp [envGet, hseed], ?_, ?_⟩
  · simp [envSet, hseed, envGet, storeSet_same]
  · simp [envSet, hseed, List.tail_cons, h]

/-- Witness for claim C2 at the empty outer chain. -/
theorem nested_scope_isolation_witness :
    envGet [] eStore 3 = none
    ∧ envGet (envSet (storeSet eStore 3 (Value.int 42) :: []) eStore 3 (Value.int 43)).1.tail
        (envSet (storeSet eStore 3 (Value.int 42) :: []) eStore 3 (Value.int 43)).2 3
        = none :=
  ⟨rfl, (nested_scope_isolation [] eStore 3 rfl).2.2⟩

/-- Claim C4: `get(key)` returns the value from the current frame's own store
when present, otherwise delegates to the parent, and fails with `KeyError`
when the key is absent along the entire chain — never returning a default. -/
theorem getitem_chain (fs : List Store) (r : Store) (k : Key) :
    (envGet fs r k =
      match chainLookup k fs with
      | some v => some v
      | none => r k)
    ∧ ((∀ s ∈ fs, s k = none) → r k = none → envGet fs r k = none) :=
  ⟨envGet_spec fs r k, fun h1 h2 => (envGet_none_iff fs r k).mpr ⟨h1, h2⟩⟩

/-- Witness for claim C4 at a concrete chain with one empty frame. -/
theorem getitem_chain_witness : envGet [eStore] eStore 3 = none :=
  (getitem_chain [eStore] eStore 3).2
    (by
      intro s hs
      rw [List.mem_singleton] at hs
      subst hs
      rfl)
    rfl

/-- Claim C5: `delete(key)` removes from the first frame that owns the key
(or the root if none does) and fails with `KeyError` exactly when the key is
absent along the entire reachable chain; consequently, on a chain binding the
key nowhere, `set(k, v)` followed by `delete(k)` leaves a subsequent `get(k)`
failing with `KeyError`. -/
theorem delitem_chain (fs : List Store) (r : Store) (k : Key) (v : Value) :
    (envDel fs r k =
      match firstOwner k fs with
      | some i => some (fs.set i (storeDel (fs.getD i eStore) k), r)
      | none => if (r k).isSome then some (fs, storeDel r k) else none)
    ∧ (envDel fs r k = none ↔ envGet fs r k = none)
    ∧ (envGet fs r k = none →
        ∃ st2, envDel (envSet fs r k v).1 (envSet fs r k v).2 k = some st2
          ∧ envGet st2.1 st2.2 k = none) := by
  refine ⟨envDel_spec fs r k, envDel_none_iff fs r k, fun h => ?_⟩
  obtain ⟨hfr, hrk⟩ := (envGet_none_iff fs r k).mp h
  have hset : envSet fs r k v = (fs, storeSet r k v) := envSet_not_owned fs r k v hfr
  rw [hset]
  have hfo : firstOwner k fs = none := (firstOwner_none_iff fs k).mpr hfr
  refine ⟨(fs, storeDel (storeSet r k v) k), ?_, ?_⟩
  · rw [envDel_spec]
    simp [hfo, storeSet_same]
  · exact (envGet_none_iff fs (storeDel (storeSet r k v) k) k).mpr
      ⟨hfr, storeDel_same (storeSet r k v) k⟩

/-- Witness for claim C5 at a concrete chain with one empty frame. -/
theorem delitem_chain_witness :
    ∃ st2, envDel (envSet [eStore] eStore 3 (Value.int 5)).1
        (envSet [eStore] eStore 3 (Value.int 5)).2 3 = some st2
      ∧ envGet st2.1 st2.2 3 = none :=
  (delitem_chain [eStore] eStore 3 (Value.int 5)).2.2 rfl

/-- Claim C3: for every scope opened via `create` or `parameterize`, whether
the enclosed code completes normally or raises, the `finally` restores the
thread's head to the pre-entry nesting level before the exception continues
propagating; and since the `Parameter` API offers no deletion, any enclosed
code that never deletes the parameterized key leaves the parameter's observed
value after `parameterize` exits exactly at its prior value. -/
theorem scope_exit_restores (d : Store) (body : Prog) (fs : List Store)
    (r : Store) (p : Parameter) (v : Value) (body2 : Prog)
    (hnd : progNoDel p.key body2 = true) :
    (execCmd (Cmd.scope d body) fs r).2.1.length = fs.length
    ∧ envGet (execCmd (p.parameterize v body2) fs r).2.1
        (execCmd (p.parameterize v body2) fs r).2.2 p.key
      = envGet fs r p.key := by
  refine ⟨execCmd_length (Cmd.scope d body) fs r, ?_⟩
  have hown : ownedWithin p.key 1 (storeSet eStore p.key (p.converter v) :: fs) :=
    ⟨0, by omega, by simp [List.getD_cons_zero, storeSet_same]⟩
  have hcol := execProg_colOk body2 p.key hnd
    (storeSet eStore p.key (p.converter v) :: fs) r 1 hown
  have hlen := execProg_length body2 (storeSet eStore p.key (p.converter v) :: fs) r
  obtain ⟨l1, m1, u1, r1⟩ := hcol
  have hexec : execCmd (p.parameterize v body2) fs r
      = ((execProg body2 (storeSet eStore p.key (p.converter v) :: fs) r).1,
         (execProg body2 (storeSet eStore p.key (p.converter v) :: fs) r).2.1.tail,
         (execProg body2 (storeSet eStore p.key (p.converter v) :: fs) r).2.2) := by
    simp [Parameter.parameterize, execCmd]
  rw [hexec]
  cases hch : (execProg body2 (storeSet eStore p.key (p.converter v) :: fs) r).2.1 with
  | nil =>
    rw [hch] at hlen
    simp at hlen
  | cons g gs =>
    rw [hch] at hlen u1
    simp only [List.tail_cons]
    apply envGet_congr fs gs r
      (execProg body2 (storeSet eStore p.key (p.converter v) :: fs) r).2.2 p.key
    · simpa using hlen
    · intro i
      have := u1 (i + 1) (by omega)
      simpa [List.getD_cons_succ] using this
    · exact r1

/-- Witness for claim C3: a parameterized parameter set inside the block and
then hit by an exception still reads back its prior value after exit. -/
theorem scope_exit_restores_witness :
    progNoDel 0 (Prog.cons (Cmd.set 0 (Value.int 51)) (Prog.cons Cmd.raiseExc Prog.nil)) = true
    ∧ envGet
        (execCmd
          (Parameter.parameterize ⟨0, idConv⟩ (Value.int 50)
            (Prog.cons (Cmd.set 0 (Value.int 51)) (Prog.cons Cmd.raiseExc Prog.nil))) []
          (storeSet eStore 0 (Value.int 42))).2.1
        (execCmd
          (Parameter.parameterize ⟨0, idConv⟩ (Value.int 50)
            (Prog.cons (Cmd.set 0 (Value.int 51)) (Prog.cons Cmd.raiseExc Prog.nil))) []
          (storeSet eStore 0 (Value.int 42))).2.2 0
      = envGet [] (storeSet eStore 0 (Value.int 42)) 0 :=
  ⟨rfl,
    (scope_exit_restores eStore Prog.nil [] (storeSet eStore 0 (Value.int 42))
      ⟨0, idConv⟩ (Value.int 50)
      (Prog.cons (Cmd.set 0 (Value.int 51)) (Prog.cons Cmd.raiseExc Prog.nil)) rfl).2⟩

/-- Claim C6: the converter is applied on every set including construction:
construction stores `converter(default)` and every `set(value)` stores
`converter(value)`; concretely, a parameter with the `int` converter reads
back the integer 42 after `set` of the string "42", while a parameter with
the default identity converter reads back the string "42", which is not
equal to the integer 42. -/
theorem converter_on_every_set (fs : List Store) (r : Store) (p : Parameter)
    (dflt v : Value) :
    envGet (p.init dflt fs r).1 (p.init dflt fs r).2 p.key = some (p.converter dflt)
    ∧ envGet (p.set v fs r).2.1 (p.set v fs r).2.2 p.key = some (p.converter v)
    ∧ envGet ((Parameter.set ⟨0, pyIntConv⟩ (Value.str "42")
          (Parameter.init ⟨0, pyIntConv⟩ (Value.int 42) [] eStore).1
          (Parameter.init ⟨0, pyIntConv⟩ (Value.int 42) [] eStore).2).2).1
        ((Parameter.set ⟨0, pyIntConv⟩ (Value.str "42")
          (Parameter.init ⟨0, pyIntConv⟩ (Value.int 42) [] eStore).1
          (Parameter.init ⟨0, pyIntConv⟩ (Value.int 42) [] eStore).2).2).2 0
      = some (Value.int 42)
    ∧ envGet ((Parameter.set ⟨0, idConv⟩ (Value.str "42")
          (Parameter.init ⟨0, idConv⟩ (Value.int 42) [] eStore).1
          (Parameter.init ⟨0, idConv⟩ (Value.int 42) [] eStore).2).2).1
        ((Parameter.set ⟨0, idConv⟩ (Value.str "42")
          (Parameter.init ⟨0, idConv⟩ (Value.int 42) [] eStore).1
          (Parameter.init ⟨0, idConv⟩ (Value.int 42) [] eStore).2).2).2 0
      = some (Value.str "42")
    ∧ Value.str "42" ≠ Value.int 42 :=
  ⟨envGet_envSet_same fs r p.key (p.converter dflt),
    envGet_envSet_same fs r p.key (p.converter v),
    by decide, by decide, by decide⟩

/-- Claim C7's scenario refuted: constructing a parameter — whose identity is
a fresh key, bound in no frame — while a scope is open does not place the
default in the open scope's (non-root, current-head) frame; the see-through
write places it in the root frame. -/
theorem init_inside_scope_counterexample :
    ((Parameter.init ⟨5, idConv⟩ (Value.int 42)
        [storeSet eStore 1 (Value.int 1)] eStore).1.getD 0 eStore) 5 = none
    ∧ (Parameter.init ⟨5, idConv⟩ (Value.int 42)
        [storeSet eStore 1 (Value.int 1)] eStore).2 5 = some (Value.int 42) := by
  decide

/-- Claim C7 amended: `Parameter.__init__` binds `converter(default)` under
the parameter's own identity through the current environment at construction
time, but since a freshly constructed parameter's key is present in no
frame's store, the see-through write always lands in the root frame — also
when construction runs inside an open scope — leaving every non-root frame
unchanged. -/
theorem init_binds_in_root (fs : List Store) (r : Store) (p : Parameter)
    (dflt : Value) (hfresh : ∀ s ∈ fs, s p.key = none) :
    p.init dflt fs r = (fs, storeSet r p.key (p.converter dflt)) :=
  envSet_not_owned fs r p.key (p.converter dflt) hfresh

/-- Witness for the amended claim C7, constructing inside an open scope. -/
theorem init_binds_in_root_witness :
    Parameter.init ⟨5, idConv⟩ (Value.int 42) [storeSet eStore 1 (Value.int 1)] eStore
      = ([storeSet eStore 1 (Value.int 1)], storeSet eStore 5 (Value.int 42)) :=
  init_binds_in_root [storeSet eStore 1 (Value.int 1)] eStore ⟨5, idConv⟩ (Value.int 42)
    (by
      intro s hs
      rw [List.mem_singleton] at hs
      subst hs
      rfl)

/-- Claim C8: call-style sugar on a parameter — a zero-argument call returns
exactly what `get` returns without touching the chain, a one-argument call
performs `set` (returning set's result), and a call with two or more
arguments fails with `TypeError` leaving every binding unchanged. -/
theorem call_sugar_arity (p : Parameter) (fs : List Store) (r : Store)
    (v v1 v2 : Value) (rest : List Value) :
    p.call [] fs r = (p.get fs r, fs, r)
    ∧ p.call [v] fs r = (Except.ok Value.vnone, (p.set v fs r).2)
    ∧ p.call (v1 :: v2 :: rest) fs r = (Except.error Exc.invalidArity, fs, r) :=
  ⟨rfl, rfl, rfl⟩

/-- Claim C9's divergence: the module initializer sets the context-local
`dynamic_environment` attribute only in the importing thread, so any other
thread's very first access raises `AttributeError` — not `KeyError` — and no
thread-private root frame is created lazily for it; in the importing thread
itself an unbound key fails with `KeyError`. -/
theorem other_thread_attribute_error (t0 t : ThreadId) (k : Key) (h : t ≠ t0) :
    proxyGetFrom (moduleContextLocal t0) t k = Except.error Exc.attributeError
    ∧ proxyGetFrom (moduleContextLocal t0) t0 k = Except.error Exc.unboundKey := by
  constructor
  · simp [proxyGetFrom, moduleContextLocal, h]
  · simp [proxyGetFrom, moduleContextLocal, envGet, eStore]

/-- Witness for the C9 divergence at concrete threads and key. -/
theorem other_thread_attribute_error_witness :
    (1 : ThreadId) ≠ 0
    ∧ proxyGetFrom (moduleContextLocal 0) 1 5 = Except.error Exc.attributeError :=
  ⟨by decide, (other_thread_attribute_error 0 1 5 (by decide)).1⟩

/-- Claim C10: `Parameter.set` returns `None` for every input, and the
one-argument call sugar therefore also evaluates to `None` while performing
exactly the state change of `set`. -/
theorem set_returns_none (p : Parameter) (v : Value) (fs : List Store)
    (r : Store) :
    (p.set v fs r).1 = Value.vnone
    ∧ (p.call [v] fs r).1 = Except.ok Value.vnone
    ∧ (p.call [v] fs r).2 = (p.set v fs r).2 :=
  ⟨rfl, rfl, rfl⟩

/-- Witness for claim C6 at a concrete parameter with the `int` converter. -/
theorem converter_on_every_set_witness :
    envGet (Parameter.init ⟨2, pyIntConv⟩ (Value.int 7) [] eStore).1
        (Parameter.init ⟨2, pyIntConv⟩ (Value.int 7) [] eStore).2 2
      = some (pyIntConv (Value.int 7)) :=
  (converter_on_every_set [] eStore ⟨2, pyIntConv⟩ (Value.int 7) (Value.int 9)).1
